import Mathlib

set_option maxHeartbeats 1000000

/-!
Verification of the YAML front-matter editor (`src/main.py`).

The pure core of the program is embedded shallowly: Python strings are Lean
`String`s, `str.splitlines` / `str.strip` / `"\n".join` are modelled at the
character-list level, and the pure functions `find_yaml_block_indices`,
`extract_yaml_data`, `update_yaml_field`, `build_updated_content` and
`update_yaml_content` are translated directly.  Exceptions become `Except`
values: `update_yaml_content` catches every exception of `extract_yaml_data`
and falls back to the original text, exactly as in the source.

The third-party YAML library (`yaml.safe_load` / `yaml.safe_dump`) is not part
of this repository; it is modelled from the spec (sections 3, 4.3, 4.5) by an
executable subset: a block mapping of one `key: value` line per entry, a block
sequence of `- value` lines, plain scalars, and the empty document.
-/

namespace ObsidianYamlEditor

/-! ## Character-level string primitives (Python `strip`, `splitlines`, `join`) -/

/-- Whitespace test used by the model of Python `str.strip`. -/
def wsChar (c : Char) : Bool := c.isWhitespace

/-- Model of Python `str.strip` on the character list: remove whitespace from
the right, then from the left. -/
def trimList (l : List Char) : List Char :=
  List.dropWhile wsChar ((List.dropWhile wsChar l.reverse).reverse)

/-- Model of Python `str.strip`. -/
def pyStrip (s : String) : String := ⟨trimList s.data⟩

/-- Line-terminator normalization: `\r\n` and `\r` both become `\n`, as in
the first step of Python `str.splitlines`. -/
def normEols : List Char → List Char
  | [] => []
  | [c] => if c = '\r' then ['\n'] else [c]
  | c :: d :: cs =>
    if c = '\r' then
      if d = '\n' then '\n' :: normEols cs
      else '\n' :: normEols (d :: cs)
    else c :: normEols (d :: cs)

/-- Break a character list after each `\n`, with no empty final line for a
trailing terminator (the second step of Python `str.splitlines`). -/
def splitNl : List Char → List (List Char)
  | [] => []
  | c :: cs =>
    if c = '\n' then [] :: splitNl cs
    else
      match splitNl cs with
      | [] => [[c]]
      | l :: ls => (c :: l) :: ls

/-- Model of Python `str.splitlines` on the character list: break after each
`\n`, `\r\n` or `\r`, with no empty final line for a trailing terminator. -/
def splitLinesList (l : List Char) : List (List Char) := splitNl (normEols l)

/-- Model of Python `str.splitlines`. -/
def pySplitlines (s : String) : List String :=
  (splitLinesList s.data).map (fun l => ⟨l⟩)

/-- Model of Python `"\n".join` on character lists. -/
def joinLinesList : List (List Char) → List Char
  | [] => []
  | l :: ls =>
    match ls with
    | [] => l
    | _ :: _ => l ++ '\n' :: joinLinesList ls

/-- Model of Python `"\n".join(lines)`. -/
def joinLines (ls : List String) : String := ⟨joinLinesList (ls.map String.data)⟩

/-! ## The YAML value model

Modelled from the spec: "Front-matter data: a mapping from string keys to
arbitrary structured values ... Invariant: must be a mapping type; any other
parsed shape (list, scalar, null) is treated as an error for this use case".
The YAML library itself is not part of this repository. -/

/-- A parsed YAML document: null, a plain scalar (kept in its textual form),
a block sequence, or a block mapping in insertion order. -/
inductive Yaml where
  | null
  | scalar (s : String)
  | list (xs : List Yaml)
  | map (kvs : List (String × Yaml))

/-- Scalar resolution: the empty string, `null` and `~` resolve to null,
anything else stays a plain scalar.  The argument is already stripped. -/
def parseScalarChars (w : List Char) : Yaml :=
  if w = [] ∨ w = ['n', 'u', 'l', 'l'] ∨ w = ['~'] then Yaml.null
  else Yaml.scalar ⟨w⟩

/-- Split a line at the first `": "` occurrence, the key/value separator of a
block-mapping line. -/
def splitFirstColonSpace : List Char → Option (List Char × List Char)
  | [] => none
  | c :: rest =>
    if c = ':' ∧ rest.head? = some ' ' then some ([], rest.tail)
    else
      match splitFirstColonSpace rest with
      | none => none
      | some (k, v) => some (c :: k, v)

/-- Whether the list contains a `": "` occurrence. -/
def hasColonSpace : List Char → Bool
  | [] => false
  | c :: rest =>
    if c = ':' ∧ rest.head? = some ' ' then true else hasColonSpace rest

/-- The reading of one line of a YAML block. -/
inductive LineItem where
  | item (v : Yaml)
  | entry (k : String) (v : Yaml)
  | plain (v : Yaml)

/-- Classify one (already stripped) line of a YAML block: a sequence item
`- v`, a mapping entry `k: v` (or `k:` with a null value), or a plain scalar
line. -/
def classifyChars (t : List Char) : LineItem :=
  if t = ['-'] then LineItem.item Yaml.null
  else if t.take 2 = ['-', ' '] then
    LineItem.item (parseScalarChars (trimList (t.drop 2)))
  else
    match splitFirstColonSpace t with
    | some (k, v) => LineItem.entry ⟨k⟩ (parseScalarChars (trimList v))
    | none =>
      if t.getLast? = some ':' then LineItem.entry ⟨t.dropLast⟩ Yaml.null
      else LineItem.plain (parseScalarChars (trimList t))

/-- Classify one raw line of a YAML block. -/
def classifyLine (l : String) : LineItem := classifyChars (trimList l.data)

/-- Collect a list of line readings that are all sequence items. -/
def allItems : List LineItem → Option (List Yaml)
  | [] => some []
  | LineItem.item v :: rest =>
    match allItems rest with
    | some xs => some (v :: xs)
    | none => none
  | _ => none

/-- Collect a list of line readings that are all mapping entries. -/
def allEntries : List LineItem → Option (List (String × Yaml))
  | [] => some []
  | LineItem.entry k v :: rest =>
    match allEntries rest with
    | some kvs => some ((k, v) :: kvs)
    | none => none
  | _ => none

/-- Modelled from the spec: the parsing side of the YAML library
(`yaml.safe_load`), which is not part of this repository.  A blank document is
null; otherwise the non-blank lines must be uniformly sequence items or
uniformly mapping entries (or a single plain scalar line); anything else is a
parse error. -/
def yaml_safe_load (text : String) : Except String Yaml :=
  let ls := (pySplitlines text).filter (fun l => decide (pyStrip l ≠ ""))
  match ls with
  | [] => Except.ok Yaml.null
  | [l] =>
    match classifyLine l with
    | LineItem.plain v => Except.ok v
    | LineItem.item v => Except.ok (Yaml.list [v])
    | LineItem.entry k v => Except.ok (Yaml.map [(k, v)])
  | _ =>
    match allItems (ls.map classifyLine) with
    | some xs => Except.ok (Yaml.list xs)
    | none =>
      match allEntries (ls.map classifyLine) with
      | some kvs => Except.ok (Yaml.map kvs)
      | none => Except.error "could not parse block as YAML"

/-- The serialized form of a scalar value. -/
def dumpScalarChars : Yaml → List Char
  | Yaml.null => ['n', 'u', 'l', 'l']
  | Yaml.scalar s => s.data
  | Yaml.list _ => ['[', ']']
  | Yaml.map _ => ['{', '}']

/-- The serialized line of one mapping entry: `key: value`. -/
def entryLineChars (kv : String × Yaml) : List Char :=
  kv.1.data ++ ':' :: ' ' :: dumpScalarChars kv.2

/-- Modelled from the spec: the serialization side of the YAML library
(`yaml.safe_dump(data, allow_unicode=True, sort_keys=False)`), which is not
part of this repository.  One `key: value` line per mapping entry in insertion
order, one `- value` line per sequence element, and a trailing newline. -/
def yaml_safe_dump : Yaml → String
  | Yaml.null => "null\n"
  | Yaml.scalar s => ⟨s.data ++ ['\n']⟩
  | Yaml.list [] => "[]\n"
  | Yaml.list xs =>
    ⟨joinLinesList (xs.map (fun v => '-' :: ' ' :: dumpScalarChars v)) ++ ['\n']⟩
  | Yaml.map [] => "{}\n"
  | Yaml.map kvs => ⟨joinLinesList (kvs.map entryLineChars) ++ ['\n']⟩

/-! ## The program (`src/main.py`) -/

/-- The scan of the first loop of `find_yaml_block_indices`: index of the
first line whose stripped content is `---`. -/
def findDelimIdx : List String → Option Nat
  | [] => none
  | l :: rest =>
    if pyStrip l = "---" then some 0
    else
      match findDelimIdx rest with
      | none => none
      | some i => some (i + 1)

/-- `find_yaml_block_indices` of `src/main.py`: the index of the first line
stripping to `---`, and the index of the next such line after it; `none`
components when absent. -/
def find_yaml_block_indices (content : String) : Option Nat × Option Nat :=
  let lines := pySplitlines content
  match findDelimIdx lines with
  | none => (none, none)
  | some start_index =>
    match findDelimIdx (lines.drop (start_index + 1)) with
    | none => (some start_index, none)
    | some j => (some start_index, some (start_index + 1 + j))

/-- The exceptions `extract_yaml_data` can raise: the dedicated
`YamlBlockNotFound`, or a propagated YAML parse error. -/
inductive ExtractError where
  | yamlBlockNotFound (msg : String)
  | parseError (msg : String)
deriving DecidableEq

/-- The message of the `YamlBlockNotFound` exception raised in
`extract_yaml_data`. -/
def yamlBlockNotFoundMessage : String :=
  "YAML блок не найден или отсутствует закрывающий разделитель."

/-- `extract_yaml_data` of `src/main.py`: locate the block, join the inner
lines with `\n`, parse them; `YamlBlockNotFound` when either index is `None`,
the propagated parse error when parsing fails. -/
def extract_yaml_data (content : String) : Except ExtractError (Yaml × Nat × Nat) :=
  let lines := pySplitlines content
  match find_yaml_block_indices content with
  | (some start_index, some end_index) =>
    let yaml_lines := (lines.drop (start_index + 1)).take (end_index - (start_index + 1))
    let yaml_text := joinLines yaml_lines
    match yaml_safe_load yaml_text with
    | Except.ok data => Except.ok (data, start_index, end_index)
    | Except.error msg => Except.error (ExtractError.parseError msg)
  | _ => Except.error (ExtractError.yamlBlockNotFound yamlBlockNotFoundMessage)

/-- `update_yaml_field` of `src/main.py`: `updated_data = dict(data)` (a
shallow copy, equal to the input as a value), printed and returned with the
transformation logic left commented out — the identity on the mapping. -/
def update_yaml_field (data : List (String × Yaml)) : List (String × Yaml) :=
  let updated_data := data
  updated_data

/-- `build_updated_content` of `src/main.py`: lines strictly before the start
index, a `---` line, the re-split updated YAML, a `---` line, lines strictly
after the end index, joined with `\n`. -/
def build_updated_content (content : String) (start_index end_index : Nat)
    (updated_yaml : String) : String :=
  let lines := pySplitlines content
  joinLines
    (lines.take start_index ++ ["---"] ++ pySplitlines updated_yaml ++ ["---"]
      ++ lines.drop (end_index + 1))

/-- `update_yaml_content` of `src/main.py`: on any exception from
`extract_yaml_data`, and on a parsed value that is not a mapping, return the
input unchanged; otherwise rebuild with the stripped dump of the updated
mapping.  Total by construction. -/
def update_yaml_content (content : String) : String :=
  match extract_yaml_data content with
  | Except.error _ => content
  | Except.ok (data, start_index, end_index) =>
    match data with
    | Yaml.map kvs =>
      let data2 := update_yaml_field kvs
      let updated_yaml := pyStrip (yaml_safe_dump (Yaml.map data2))
      build_updated_content content start_index end_index updated_yaml
    | _ => content

/-- The write condition of `process_file` of `src/main.py`: the file is
rewritten exactly when `update_yaml_content` changed the content. -/
def process_file_writes (content : String) : Bool :=
  decide (update_yaml_content content ≠ content)

/-! ## Predicates used by the statements and proofs -/

/-- A character list free of line terminators. -/
def noTerm (l : List Char) : Prop := '\n' ∉ l ∧ '\r' ∉ l

/-- A delimiter line: its stripped content is exactly `---`. -/
def delimP : String → Bool := fun l => decide (pyStrip l = "---")

/-- The keys the YAML-subset parser can produce: no `": "` occurrence, no
terminator characters, not shaped like a sequence item, and no leading
whitespace. -/
def GoodKey (k : String) : Prop :=
  hasColonSpace k.data = false ∧ noTerm k.data ∧ k.data.take 2 ≠ ['-', ' '] ∧
    (∀ c, k.data.head? = some c → wsChar c = false)

/-- The values the YAML-subset parser can produce: null, or a stripped
non-empty plain scalar that does not itself resolve to null. -/
def GoodVal : Yaml → Prop
  | Yaml.null => True
  | Yaml.scalar s =>
    s.data ≠ [] ∧ trimList s.data = s.data ∧ s.data ≠ ['n', 'u', 'l', 'l'] ∧
      s.data ≠ ['~'] ∧ noTerm s.data
  | _ => False

end ObsidianYamlEditor

namespace ObsidianYamlEditor

/-! ## Lemmas about the string primitives -/

variable {α : Type*}

theorem string_mk_inj {a b : List Char} : (⟨a⟩ : String) = ⟨b⟩ ↔ a = b :=
  ⟨fun h => by injection h, fun h => h ▸ rfl⟩

theorem head?_dropWhile_not (p : α → Bool) :
    ∀ l : List α, ∀ c, (l.dropWhile p).head? = some c → p c = false
  | [], c => by simp [List.dropWhile]
  | a :: l, c => by
    rw [List.dropWhile_cons]
    by_cases h : p a
    · simpa [h] using head?_dropWhile_not p l c
    · rw [if_neg h]
      intro hc
      have ha : a = c := by simpa using hc
      subst ha
      simpa using h

theorem dropWhile_eq_self (p : α → Bool) (l : List α)
    (h : ∀ c, l.head? = some c → p c = false) : l.dropWhile p = l := by
  cases l with
  | nil => rfl
  | cons a l =>
    rw [List.dropWhile_cons, if_neg]
    simp [h a rfl]

theorem trimList_eq_self {l : List Char}
    (h1 : ∀ c, l.head? = some c → wsChar c = false)
    (h2 : ∀ c, l.getLast? = some c → wsChar c = false) : trimList l = l := by
  unfold trimList
  rw [dropWhile_eq_self wsChar l.reverse
      (fun c hc => h2 c (by rwa [List.head?_reverse] at hc)),
    List.reverse_reverse]
  exact dropWhile_eq_self wsChar l h1

theorem trimList_append_newline {x : List Char}
    (h1 : ∀ c, x.head? = some c → wsChar c = false)
    (h2 : ∀ c, x.getLast? = some c → wsChar c = false) :
    trimList (x ++ ['\n']) = x := by
  unfold trimList
  have hrev : (x ++ ['\n']).reverse = '\n' :: x.reverse := by simp
  rw [hrev, List.dropWhile_cons, if_pos (by decide),
    dropWhile_eq_self wsChar x.reverse
      (fun c hc => h2 c (by rwa [List.head?_reverse] at hc)),
    List.reverse_reverse]
  exact dropWhile_eq_self wsChar x h1

theorem trimList_head {l : List Char} {c : Char}
    (h : (trimList l).head? = some c) : wsChar c = false :=
  head?_dropWhile_not wsChar _ c h

theorem trimList_getLast {l : List Char} {c : Char}
    (h : (trimList l).getLast? = some c) : wsChar c = false := by
  unfold trimList at h
  have hne : List.dropWhile wsChar ((List.dropWhile wsChar l.reverse).reverse) ≠ [] := by
    intro hcon
    rw [hcon] at h
    simp at h
  have hsplit : (List.dropWhile wsChar l.reverse).reverse
      = List.takeWhile wsChar ((List.dropWhile wsChar l.reverse).reverse)
        ++ List.dropWhile wsChar ((List.dropWhile wsChar l.reverse).reverse) :=
    (List.takeWhile_append_dropWhile wsChar _).symm
  have hlast : ((List.dropWhile wsChar l.reverse).reverse).getLast? = some c := by
    conv_lhs => rw [hsplit]
    rw [List.getLast?_append_of_ne_nil _ hne]
    exact h
  have h3 := List.head?_reverse (List.dropWhile wsChar l.reverse).reverse
  rw [List.reverse_reverse] at h3
  rw [hlast] at h3
  exact head?_dropWhile_not wsChar _ c h3

theorem trimList_idem (l : List Char) : trimList (trimList l) = trimList l :=
  trimList_eq_self (fun _ hc => trimList_head hc) (fun _ hc => trimList_getLast hc)

theorem mem_trimList {l : List Char} {c : Char} (h : c ∈ trimList l) : c ∈ l := by
  unfold trimList at h
  have h1 := (List.dropWhile_sublist wsChar).subset h
  rw [List.mem_reverse] at h1
  have h2 := (List.dropWhile_sublist wsChar).subset h1
  rwa [List.mem_reverse] at h2

theorem noTerm_trimList {l : List Char} (h : noTerm l) : noTerm (trimList l) :=
  ⟨fun hc => h.1 (mem_trimList hc), fun hc => h.2 (mem_trimList hc)⟩

/-! ## Lemmas about `splitlines` and `join` -/

theorem normEols_eq_self : ∀ {l : List Char}, '\r' ∉ l → normEols l = l
  | [], _ => rfl
  | [c], h => by
    have hc : c ≠ '\r' := fun hcc => h (by simp [hcc])
    simp [normEols, hc]
  | c :: d :: cs, h => by
    have hc : c ≠ '\r' := fun hcc => h (by simp [hcc])
    have hm : '\r' ∉ d :: cs := fun hmm => h (List.mem_cons_of_mem c hmm)
    rw [normEols, if_neg hc, normEols_eq_self hm]

theorem splitNl_no_newline : ∀ {l : List Char}, '\n' ∉ l → l ≠ [] → splitNl l = [l]
  | [], _, hne => absurd rfl hne
  | c :: cs, h, _ => by
    have hc : c ≠ '\n' := fun hcc => h (by simp [hcc])
    rw [splitNl, if_neg hc]
    by_cases hcs : cs = []
    · subst hcs; rfl
    · have hm : '\n' ∉ cs := fun hmm => h (List.mem_cons_of_mem c hmm)
      rw [splitNl_no_newline hm hcs]

theorem splitNl_append_newline :
    ∀ {l : List Char} (r : List Char), '\n' ∉ l →
      splitNl (l ++ '\n' :: r) = l :: splitNl r
  | [], r, _ => by rw [List.nil_append, splitNl, if_pos rfl]
  | c :: cs, r, h => by
    have hc : c ≠ '\n' := fun hcc => h (by simp [hcc])
    have hcs : '\n' ∉ cs := fun hmm => h (List.mem_cons_of_mem c hmm)
    rw [List.cons_append, splitNl, if_neg hc, splitNl_append_newline r hcs]

theorem joinLinesList_cons (l : List Char) {ls : List (List Char)} (h : ls ≠ []) :
    joinLinesList (l :: ls) = l ++ '\n' :: joinLinesList ls := by
  cases ls with
  | nil => exact absurd rfl h
  | cons a as => rfl

theorem joinLinesList_append {a b : List (List Char)} (ha : a ≠ []) (hb : b ≠ []) :
    joinLinesList (a ++ b) = joinLinesList a ++ '\n' :: joinLinesList b := by
  induction a with
  | nil => exact absurd rfl ha
  | cons l a ih =>
    by_cases h : a = []
    · subst h
      rw [List.singleton_append, joinLinesList_cons l hb, joinLinesList]
    · rw [List.cons_append, joinLinesList_cons l (by simp [h]),
        joinLinesList_cons l h, ih h]
      simp

theorem mem_joinLinesList {c : Char} :
    ∀ {ls : List (List Char)}, c ∈ joinLinesList ls →
      (∃ l ∈ ls, c ∈ l) ∨ c = '\n'
  | [], h => by simp [joinLinesList] at h
  | l :: ls, h => by
    by_cases hls : ls = []
    · subst hls
      exact Or.inl ⟨l, by simp, by simpa [joinLinesList] using h⟩
    · rw [joinLinesList_cons l hls] at h
      rcases List.mem_append.mp h with h1 | h1
      · exact Or.inl ⟨l, by simp, h1⟩
      · rcases List.mem_cons.mp h1 with h2 | h2
        · exact Or.inr h2
        · rcases mem_joinLinesList h2 with ⟨l', hl', hc⟩ | h3
          · exact Or.inl ⟨l', by simp [hl'], hc⟩
          · exact Or.inr h3

theorem splitLinesList_joinLinesList :
    ∀ {ls : List (List Char)}, (∀ l ∈ ls, noTerm l) → ls ≠ [] →
      splitLinesList (joinLinesList ls)
        = if ls.getLast? = some [] then ls.dropLast else ls := by
  intro ls h hne
  have hnr : '\r' ∉ joinLinesList ls := by
    intro hc
    rcases mem_joinLinesList hc with ⟨l, hl, hcl⟩ | hc2
    · exact (h l hl).2 hcl
    · simp at hc2
  rw [splitLinesList, normEols_eq_self hnr]
  clear hnr
  induction ls with
  | nil => exact absurd rfl hne
  | cons l ls ih =>
    by_cases hls : ls = []
    · subst hls
      show splitNl (joinLinesList [l]) = _
      by_cases hl : l = []
      · subst hl; simp [joinLinesList, splitNl]
      · rw [show joinLinesList [l] = l from rfl,
          splitNl_no_newline (h l (by simp)).1 hl]
        simp [hl]
    · rw [joinLinesList_cons l hls,
        splitNl_append_newline _ (h l (by simp)).1,
        ih (fun x hx => h x (by simp [hx])) hls]
      have h1 : (l :: ls).getLast? = ls.getLast? := by
        cases ls with
        | nil => exact absurd rfl hls
        | cons a as => simp
      have h2 : (l :: ls).dropLast = l :: ls.dropLast := by
        cases ls with
        | nil => exact absurd rfl hls
        | cons a as => simp
      rw [h1, h2]
      by_cases hc : ls.getLast? = some ([] : List Char)
      · rw [if_pos hc, if_pos hc]
      · rw [if_neg hc, if_neg hc]

theorem cr_not_mem_normEols : ∀ (l : List Char), '\r' ∉ normEols l
  | [] => by simp [normEols]
  | [c] => by
    by_cases hc : c = '\r'
    · simp [normEols, hc]
    · simp [normEols, hc, Ne.symm hc]
  | c :: d :: cs => by
    have ih1 := cr_not_mem_normEols cs
    have ih2 := cr_not_mem_normEols (d :: cs)
    by_cases hc : c = '\r'
    · by_cases hd : d = '\n' <;> simp [normEols, hc, hd] <;> assumption
    · simp only [normEols, if_neg hc, List.mem_cons]
      rintro (h | h)
      · exact hc h.symm
      · exact ih2 h

theorem splitNl_mem_props :
    ∀ {ds : List Char}, ∀ l ∈ splitNl ds, '\n' ∉ l ∧ ∀ c ∈ l, c ∈ ds
  | [], l, hl => by simp [splitNl] at hl
  | d :: ds, l, hl => by
    rw [splitNl] at hl
    by_cases hd : d = '\n'
    · rw [if_pos hd] at hl
      rcases List.mem_cons.mp hl with h | h
      · subst h; exact ⟨by simp, by simp⟩
      · have := splitNl_mem_props l h
        exact ⟨this.1, fun c hc => List.mem_cons_of_mem d (this.2 c hc)⟩
    · rw [if_neg hd] at hl
      cases hsp : splitNl ds with
      | nil =>
        rw [hsp] at hl
        have : l = [d] := by simpa using hl
        subst this
        constructor
        · simp [Ne.symm hd]
        · intro c hc
          simp at hc
          simp [hc]
      | cons l0 ls =>
        rw [hsp] at hl
        rcases List.mem_cons.mp hl with h | h
        · subst h
          have h0 := splitNl_mem_props l0 (by rw [hsp]; exact List.mem_cons_self l0 ls)
          constructor
          · intro hmem
            rcases List.mem_cons.mp hmem with h1 | h1
            · exact hd h1.symm
            · exact h0.1 h1
          · intro c hc
            rcases List.mem_cons.mp hc with h1 | h1
            · simp [h1]
            · exact List.mem_cons_of_mem d (h0.2 c h1)
        · have h0 := splitNl_mem_props l (by rw [hsp]; exact List.mem_cons_of_mem l0 h)
          exact ⟨h0.1, fun c hc => List.mem_cons_of_mem d (h0.2 c hc)⟩

theorem noTerm_of_mem_splitLinesList {cs : List Char} :
    ∀ l ∈ splitLinesList cs, noTerm l := by
  intro l hl
  rw [splitLinesList] at hl
  have h := splitNl_mem_props l hl
  exact ⟨h.1, fun hc => cr_not_mem_normEols cs (h.2 '\r' hc)⟩

theorem noTerm_of_mem_pySplitlines {s : String} {l : String}
    (hl : l ∈ pySplitlines s) : noTerm l.data := by
  rw [pySplitlines, List.mem_map] at hl
  obtain ⟨cs, hcs, rfl⟩ := hl
  exact noTerm_of_mem_splitLinesList cs hcs

/-! ## The block locator: characterization of `findDelimIdx` -/

theorem findDelimIdx_eq_none_iff : ∀ {ls : List String},
    findDelimIdx ls = none ↔ ∀ l ∈ ls, pyStrip l ≠ "---"
  | [] => by simp [findDelimIdx]
  | l :: rest => by
    by_cases h : pyStrip l = "---"
    · simp only [findDelimIdx, if_pos h]
      constructor
      · intro hc; cases hc
      · intro hall; exact absurd h (hall l (List.mem_cons_self l rest))
    · simp only [findDelimIdx, if_neg h]
      have ih := @findDelimIdx_eq_none_iff rest
      cases hr : findDelimIdx rest with
      | none =>
        constructor
        · intro _ l' hl'
          rcases List.mem_cons.mp hl' with h1 | h1
          · subst h1; exact h
          · exact (ih.mp hr) l' h1
        · intro _; rfl
      | some i =>
        constructor
        · intro hc; cases hc
        · intro hall
          have hn : findDelimIdx rest = none :=
            ih.mpr (fun l' hl' => hall l' (List.mem_cons_of_mem l hl'))
          rw [hn] at hr; cases hr

theorem findDelimIdx_eq_some : ∀ {ls : List String} {i : Nat},
    findDelimIdx ls = some i →
      ∃ a d b, ls = a ++ d :: b ∧ a.length = i ∧
        (∀ l ∈ a, pyStrip l ≠ "---") ∧ pyStrip d = "---"
  | [], i, h => by cases h
  | l :: rest, i, h => by
    by_cases hl : pyStrip l = "---"
    · rw [findDelimIdx, if_pos hl] at h
      injection h with h0
      exact ⟨[], l, rest, rfl, h0, by simp, hl⟩
    · rw [findDelimIdx, if_neg hl] at h
      cases hr : findDelimIdx rest with
      | none => rw [hr] at h; cases h
      | some j =>
        rw [hr] at h
        injection h with h0
        obtain ⟨a, d, b, hsplit, hlen, hall, hd⟩ := findDelimIdx_eq_some hr
        refine ⟨l :: a, d, b, by rw [hsplit, List.cons_append], by simp [hlen, ← h0], ?_, hd⟩
        intro l' hl'
        rcases List.mem_cons.mp hl' with h1 | h1
        · subst h1; exact hl
        · exact hall l' h1

theorem findDelimIdx_append {a : List String} {d : String} (b : List String)
    (ha : ∀ l ∈ a, pyStrip l ≠ "---") (hd : pyStrip d = "---") :
    findDelimIdx (a ++ d :: b) = some a.length := by
  induction a with
  | nil => rw [List.nil_append, findDelimIdx, if_pos hd]; rfl
  | cons l a' ih =>
    rw [List.cons_append, findDelimIdx,
      if_neg (ha l (List.mem_cons_self l a')),
      ih (fun l' hl' => ha l' (List.mem_cons_of_mem l hl'))]
    rfl

/-! ## Characterization of `find_yaml_block_indices` and `extract_yaml_data` -/

theorem find_eq_some_some : ∀ {content : String} {s e : Nat},
    find_yaml_block_indices content = (some s, some e) →
      ∃ a d1 b2 d2 c2,
        pySplitlines content = a ++ d1 :: (b2 ++ d2 :: c2) ∧
        a.length = s ∧ e = s + 1 + b2.length ∧
        (∀ l ∈ a, pyStrip l ≠ "---") ∧ pyStrip d1 = "---" ∧
        (∀ l ∈ b2, pyStrip l ≠ "---") ∧ pyStrip d2 = "---" := by
  intro content s e h
  rw [find_yaml_block_indices] at h
  cases hf1 : findDelimIdx (pySplitlines content) with
  | none => simp only [hf1] at h; cases h
  | some s0 =>
    simp only [hf1] at h
    cases hf2 : findDelimIdx ((pySplitlines content).drop (s0 + 1)) with
    | none => simp only [hf2] at h; simp at h
    | some j =>
      simp only [hf2] at h
      simp only [Prod.mk.injEq, Option.some_inj] at h
      obtain ⟨h1, h2⟩ := h
      obtain ⟨a, d1, b, hsplit, hlen, hall, hd1⟩ := findDelimIdx_eq_some hf1
      have hdrop : (pySplitlines content).drop (s0 + 1) = b := by
        rw [hsplit, show a ++ d1 :: b = (a ++ [d1]) ++ b by simp,
          List.drop_left' (by simp [hlen])]
      rw [hdrop] at hf2
      obtain ⟨b2, d2, c2, hsplit2, hlen2, hall2, hd2⟩ := findDelimIdx_eq_some hf2
      subst hsplit2
      exact ⟨a, d1, b2, d2, c2, hsplit, by rw [hlen, h1], by omega, hall, hd1, hall2, hd2⟩

theorem find_of_shape {content : String} {a b2 c2 : List String} {d1 d2 : String}
    (hlines : pySplitlines content = a ++ d1 :: (b2 ++ d2 :: c2))
    (ha : ∀ l ∈ a, pyStrip l ≠ "---") (hd1 : pyStrip d1 = "---")
    (hb : ∀ l ∈ b2, pyStrip l ≠ "---") (hd2 : pyStrip d2 = "---") :
    find_yaml_block_indices content = (some a.length, some (a.length + 1 + b2.length)) := by
  have h1 : findDelimIdx (pySplitlines content) = some a.length := by
    rw [hlines]; exact findDelimIdx_append _ ha hd1
  have h2 : findDelimIdx ((pySplitlines content).drop (a.length + 1)) = some b2.length := by
    rw [hlines, show a ++ d1 :: (b2 ++ d2 :: c2) = (a ++ [d1]) ++ (b2 ++ d2 :: c2) by simp,
      List.drop_left' (by simp)]
    exact findDelimIdx_append _ hb hd2
  rw [find_yaml_block_indices]
  simp only [h1, h2]

theorem extract_of_find_not_both {content : String}
    (h : ∀ s e, find_yaml_block_indices content ≠ (some s, some e)) :
    extract_yaml_data content
      = Except.error (ExtractError.yamlBlockNotFound yamlBlockNotFoundMessage) := by
  rw [extract_yaml_data]
  cases hfind : find_yaml_block_indices content with
  | mk os oe =>
    cases os with
    | none => cases oe <;> rfl
    | some s =>
      cases oe with
      | none => rfl
      | some e => exact absurd hfind (h s e)

/-! ## The `": "` separator -/

theorem hasColonSpace_cons_eq_false {c : Char} {rest : List Char} :
    hasColonSpace (c :: rest) = false ↔
      ¬(c = ':' ∧ rest.head? = some ' ') ∧ hasColonSpace rest = false := by
  rw [hasColonSpace]
  by_cases h : c = ':' ∧ rest.head? = some ' '
  · simp [h]
  · simp [h]

theorem splitFirstColonSpace_append {v : List Char} :
    ∀ {k : List Char}, hasColonSpace k = false →
      splitFirstColonSpace (k ++ ':' :: ' ' :: v) = some (k, v)
  | [], _ => by simp [splitFirstColonSpace]
  | c :: k', h => by
    obtain ⟨hcond, hk'⟩ := hasColonSpace_cons_eq_false.mp h
    rw [List.cons_append, splitFirstColonSpace, if_neg ?_,
      splitFirstColonSpace_append hk']
    · intro hcc
      rcases hcc with ⟨hc, hh⟩
      cases hk : k' with
      | nil => subst hk; simp at hh
      | cons x xs =>
        subst hk
        simp only [List.cons_append, List.head?_cons, Option.some_inj] at hh
        exact hcond ⟨hc, by simp [hh]⟩

theorem splitFirstColonSpace_eq_some :
    ∀ {t k v : List Char}, splitFirstColonSpace t = some (k, v) →
      hasColonSpace k = false ∧ t = k ++ ':' :: ' ' :: v
  | [], k, v, h => by cases h
  | c :: rest, k, v, h => by
    rw [splitFirstColonSpace] at h
    by_cases hcond : c = ':' ∧ rest.head? = some ' '
    · rw [if_pos hcond] at h
      obtain ⟨hc, hh⟩ := hcond
      cases rest with
      | nil => simp at hh
      | cons r rs =>
        simp only [List.head?_cons, Option.some_inj] at hh
        simp only [List.tail_cons, Option.some_inj, Prod.mk.injEq] at h
        obtain ⟨hk, hv⟩ := h
        subst hk; subst hv; subst hc; subst hh
        exact ⟨rfl, rfl⟩
    · rw [if_neg hcond] at h
      cases hs : splitFirstColonSpace rest with
      | none => simp only [hs] at h; cases h
      | some kv =>
        obtain ⟨k', v'⟩ := kv
        simp only [hs, Option.some_inj, Prod.mk.injEq] at h
        obtain ⟨hk, hv⟩ := h
        obtain ⟨hkcs, hrest⟩ := splitFirstColonSpace_eq_some hs
        subst hv
        subst hk
        constructor
        · rw [hasColonSpace_cons_eq_false]
          refine ⟨?_, hkcs⟩
          rintro ⟨hc, hh⟩
          apply hcond
          refine ⟨hc, ?_⟩
          rw [hrest]
          cases k' with
          | nil => simp at hh
          | cons x xs =>
            simp only [List.head?_cons, Option.some_inj] at hh
            simp [hh]
        · rw [hrest, List.cons_append]

theorem splitFirstColonSpace_eq_none :
    ∀ {t : List Char}, splitFirstColonSpace t = none → hasColonSpace t = false
  | [], _ => rfl
  | c :: rest, h => by
    rw [splitFirstColonSpace] at h
    by_cases hcond : c = ':' ∧ rest.head? = some ' '
    · rw [if_pos hcond] at h; cases h
    · rw [if_neg hcond] at h
      cases hs : splitFirstColonSpace rest with
      | none =>
        exact hasColonSpace_cons_eq_false.mpr ⟨hcond, splitFirstColonSpace_eq_none hs⟩
      | some kv => obtain ⟨k', v'⟩ := kv; simp only [hs] at h; cases h

theorem hasColonSpace_dropLast :
    ∀ {t : List Char}, hasColonSpace t = false → hasColonSpace t.dropLast = false
  | [], _ => rfl
  | [_], _ => rfl
  | c :: d :: rest, h => by
    obtain ⟨hcond, htail⟩ := hasColonSpace_cons_eq_false.mp h
    rw [List.dropLast_cons₂]
    refine hasColonSpace_cons_eq_false.mpr ⟨?_, hasColonSpace_dropLast htail⟩
    rintro ⟨hc, hh⟩
    cases rest with
    | nil => simp at hh
    | cons y ys =>
      rw [List.dropLast_cons₂, List.head?_cons, Option.some_inj] at hh
      exact hcond ⟨hc, by simp [hh]⟩

/-! ## Scalars -/

theorem goodVal_parseScalarChars {w : List Char} (hw : noTerm w) :
    GoodVal (parseScalarChars (trimList w)) := by
  rw [parseScalarChars]
  by_cases h : trimList w = [] ∨ trimList w = ['n', 'u', 'l', 'l'] ∨ trimList w = ['~']
  · rw [if_pos h]; trivial
  · rw [if_neg h]
    push_neg at h
    obtain ⟨h1, h2, h3⟩ := h
    exact ⟨h1, trimList_idem w, h2, h3,
      ⟨fun hc => (noTerm_trimList hw).1 hc, fun hc => (noTerm_trimList hw).2 hc⟩⟩

theorem parseScalarChars_dump {v : Yaml} (hv : GoodVal v) :
    parseScalarChars (trimList (dumpScalarChars v)) = v := by
  cases v with
  | null => rfl
  | scalar s =>
    obtain ⟨h1, h2, h3, h4, _⟩ := hv
    rw [dumpScalarChars, h2, parseScalarChars, if_neg (by simp [h1, h3, h4])]
  | list xs => exact absurd hv (by simp [GoodVal])
  | map kvs => exact absurd hv (by simp [GoodVal])

/-! ## Entry lines -/

theorem entryLine_facts {k : String} {v : Yaml} (hk : GoodKey k) (hv : GoodVal v) :
    trimList (entryLineChars (k, v)) = entryLineChars (k, v) ∧
      noTerm (entryLineChars (k, v)) ∧ entryLineChars (k, v) ≠ [] ∧
      ':' ∈ entryLineChars (k, v) := by
  obtain ⟨hcs, hnt, htake, hhead⟩ := hk
  have hvdata : ∀ c ∈ dumpScalarChars v, c ≠ '\n' ∧ c ≠ '\r' := by
    cases v with
    | null =>
      intro c hc
      simp only [dumpScalarChars, List.mem_cons, List.not_mem_nil, or_false] at hc
      rcases hc with rfl | rfl | rfl | rfl <;> exact ⟨by decide, by decide⟩
    | scalar s =>
      intro c hc
      obtain ⟨_, _, _, _, hnt2⟩ := hv
      exact ⟨fun hcc => hnt2.1 (hcc ▸ hc), fun hcc => hnt2.2 (hcc ▸ hc)⟩
    | list xs => exact absurd hv (by simp [GoodVal])
    | map kvs => exact absurd hv (by simp [GoodVal])
  have hvlast : ∀ c, (dumpScalarChars v).getLast? = some c → wsChar c = false := by
    cases v with
    | null => intro c hc; simp [dumpScalarChars] at hc; subst hc; decide
    | scalar s =>
      intro c hc
      obtain ⟨h1, h2, _, _, _⟩ := hv
      have hh : (trimList s.data).getLast? = some c := by rw [h2]; exact hc
      exact trimList_getLast hh
    | list xs => exact absurd hv (by simp [GoodVal])
    | map kvs => exact absurd hv (by simp [GoodVal])
  have hvne : dumpScalarChars v ≠ [] := by
    cases v with
    | null => simp [dumpScalarChars]
    | scalar s => exact hv.1
    | list xs => exact absurd hv (by simp [GoodVal])
    | map kvs => exact absurd hv (by simp [GoodVal])
  refine ⟨?_, ?_, ?_, ?_⟩
  · apply trimList_eq_self
    · intro c hc
      rw [entryLineChars] at hc
      cases hdat : k.data with
      | nil => rw [hdat] at hc; simp at hc; subst hc; decide
      | cons x xs =>
        rw [hdat] at hc
        simp only [List.cons_append, List.head?_cons, Option.some_inj] at hc
        exact hhead c (by rw [hdat, hc]; rfl)
    · intro c hc
      rw [entryLineChars, List.getLast?_append_of_ne_nil _ (by simp [hvne])] at hc
      rw [show (':' :: ' ' :: dumpScalarChars v) = [':', ' '] ++ dumpScalarChars v by rfl,
        List.getLast?_append_of_ne_nil _ hvne] at hc
      exact hvlast c hc
  · constructor
    · intro hc
      rw [entryLineChars] at hc
      rcases List.mem_append.mp hc with h | h
      · exact hnt.1 h
      · rcases List.mem_cons.mp h with h | h
        · exact absurd h (by decide)
        · rcases List.mem_cons.mp h with h | h
          · exact absurd h (by decide)
          · exact (hvdata _ h).1 rfl
    · intro hc
      rw [entryLineChars] at hc
      rcases List.mem_append.mp hc with h | h
      · exact hnt.2 h
      · rcases List.mem_cons.mp h with h | h
        · exact absurd h (by decide)
        · rcases List.mem_cons.mp h with h | h
          · exact absurd h (by decide)
          · exact (hvdata _ h).2 rfl
  · simp [entryLineChars]
  · rw [entryLineChars]
    exact List.mem_append.mpr (Or.inr (by simp))

theorem head?_dropLast {l : List α} {c : α} (h : l.dropLast.head? = some c) :
    l.head? = some c := by
  cases l with
  | nil => simp at h
  | cons x xs =>
    cases xs with
    | nil => simp at h
    | cons y ys =>
      rw [List.dropLast_cons₂, List.head?_cons, Option.some_inj] at h
      simp [h]

/-! ## Classification of lines: roundtrip and range -/

theorem classifyChars_entryLine {k : String} {v : Yaml}
    (hk : GoodKey k) (hv : GoodVal v) :
    classifyChars (entryLineChars (k, v)) = LineItem.entry k v := by
  have hfacts := entryLine_facts hk hv
  obtain ⟨hcs, hnt, htake, hhead⟩ := hk
  rw [classifyChars, if_neg ?_, if_neg ?_]
  · rw [entryLineChars]
    simp only [splitFirstColonSpace_append hcs]
    rw [parseScalarChars_dump hv]
  · rw [entryLineChars]
    cases hdat : k.data with
    | nil => simp
    | cons x xs =>
      cases xs with
      | nil => simp
      | cons y ys =>
        rw [hdat] at htake
        simpa using htake
  · intro heq
    have hmem := hfacts.2.2.2
    rw [heq] at hmem
    simp at hmem

theorem classify_entry_good {l : String} (hl : noTerm l.data) {k : String} {v : Yaml}
    (h : classifyLine l = LineItem.entry k v) : GoodKey k ∧ GoodVal v := by
  rw [classifyLine] at h
  have hntt : noTerm (trimList l.data) := noTerm_trimList hl
  rw [classifyChars] at h
  by_cases h1 : trimList l.data = ['-']
  · rw [if_pos h1] at h; cases h
  rw [if_neg h1] at h
  by_cases h2 : (trimList l.data).take 2 = ['-', ' ']
  · rw [if_pos h2] at h; cases h
  rw [if_neg h2] at h
  cases hs : splitFirstColonSpace (trimList l.data) with
  | some kv =>
    obtain ⟨k', v'⟩ := kv
    simp only [hs] at h
    obtain ⟨hcs, hrest⟩ := splitFirstColonSpace_eq_some hs
    injection h with hk hv
    subst hk
    subst hv
    refine ⟨⟨hcs, ?_, ?_, ?_⟩, ?_⟩
    · constructor
      · intro hc
        exact hntt.1 (by rw [hrest]; exact List.mem_append.mpr (Or.inl hc))
      · intro hc
        exact hntt.2 (by rw [hrest]; exact List.mem_append.mpr (Or.inl hc))
    · show k'.take 2 ≠ ['-', ' ']
      cases hk' : k' with
      | nil => simp
      | cons x xs =>
        cases hxs : xs with
        | nil => simp
        | cons y ys =>
          intro hcon
          apply h2
          rw [hrest, hk', hxs]
          simpa using hcon
    · show ∀ c, k'.head? = some c → wsChar c = false
      intro c hc
      cases hk' : k' with
      | nil => rw [hk'] at hc; simp at hc
      | cons x xs =>
        rw [hk'] at hc
        rw [List.head?_cons, Option.some_inj] at hc
        have hh : (trimList l.data).head? = some c := by
          rw [hrest, hk', hc]
          rfl
        exact trimList_head hh
    · exact goodVal_parseScalarChars
        ⟨fun hc => hntt.1 (by rw [hrest]; simp [hc]),
          fun hc => hntt.2 (by rw [hrest]; simp [hc])⟩
  | none =>
    simp only [hs] at h
    by_cases h3 : (trimList l.data).getLast? = some ':'
    · rw [if_pos h3] at h
      injection h with hk hv
      subst hk
      subst hv
      have hcst : hasColonSpace (trimList l.data) = false :=
        splitFirstColonSpace_eq_none hs
      refine ⟨⟨hasColonSpace_dropLast hcst, ?_, ?_, ?_⟩, trivial⟩
      · constructor
        · intro hc
          exact hntt.1 ((List.dropLast_sublist (trimList l.data)).subset hc)
        · intro hc
          exact hntt.2 ((List.dropLast_sublist (trimList l.data)).subset hc)
      · show (trimList l.data).dropLast.take 2 ≠ ['-', ' ']
        intro hcon
        apply h2
        have hlen : 2 ≤ (trimList l.data).dropLast.length := by
          have h4 := congrArg List.length hcon
          simp only [List.length_take, List.length_cons, List.length_nil] at h4
          rcases Nat.le_total 2 (trimList l.data).dropLast.length with h5 | h5
          · exact h5
          · rw [Nat.min_eq_right h5] at h4; omega
        have hne : trimList l.data ≠ [] := by
          intro hnil; rw [hnil] at h3; simp at h3
        rw [← List.dropLast_append_getLast hne,
          List.take_append_of_le_length hlen]
        exact hcon
      · show ∀ c, (trimList l.data).dropLast.head? = some c → wsChar c = false
        intro c hc
        exact trimList_head (head?_dropLast hc)
    · rw [if_neg h3] at h; cases h

/-! ## `allItems` and `allEntries` -/

theorem allEntries_map_entry (kvs : List (String × Yaml)) :
    allEntries (kvs.map (fun kv => LineItem.entry kv.1 kv.2)) = some kvs := by
  induction kvs with
  | nil => rfl
  | cons kv rest ih => simp [allEntries, ih]

theorem allEntries_mem :
    ∀ {items : List LineItem} {kvs : List (String × Yaml)},
      allEntries items = some kvs → ∀ kv ∈ kvs, LineItem.entry kv.1 kv.2 ∈ items
  | [], kvs, h => by
    injection h with h0
    subst h0
    intro kv hkv
    simp at hkv
  | LineItem.item v :: rest, kvs, h => by cases h
  | LineItem.plain v :: rest, kvs, h => by cases h
  | LineItem.entry k v :: rest, kvs, h => by
    rw [allEntries] at h
    cases hr : allEntries rest with
    | none => rw [hr] at h; cases h
    | some kvs' =>
      rw [hr] at h
      injection h with h0
      subst h0
      intro kv hkv
      rcases List.mem_cons.mp hkv with h1 | h1
      · subst h1; exact List.mem_cons_self _ _
      · exact List.mem_cons_of_mem _ (allEntries_mem hr kv h1)

/-! ## Head and last of a joined block -/

theorem joinLinesList_ne_nil :
    ∀ {Ls : List (List Char)}, Ls ≠ [] → (∀ L ∈ Ls, L ≠ []) → joinLinesList Ls ≠ []
  | [], h, _ => absurd rfl h
  | [L], _, hall => by
    have := hall L (by simp)
    simpa [joinLinesList] using this
  | L :: M :: Ms, _, _ => by
    rw [joinLinesList_cons L (by simp)]
    simp

theorem joinLinesList_head?_eq {L : List Char} {Ls : List (List Char)} (hL : L ≠ []) :
    (joinLinesList (L :: Ls)).head? = L.head? := by
  cases Ls with
  | nil => rfl
  | cons M Ms =>
    rw [joinLinesList_cons L (by simp)]
    cases L with
    | nil => exact absurd rfl hL
    | cons c cs => simp

theorem joinLinesList_getLast?_eq :
    ∀ {Ls : List (List Char)} {Llast : List Char},
      (∀ L ∈ Ls, L ≠ []) → Ls.getLast? = some Llast →
        (joinLinesList Ls).getLast? = Llast.getLast?
  | [], _, _, h => by cases h
  | [L], Llast, hall, h => by
    simp only [List.getLast?_singleton, Option.some_inj] at h
    subst h
    rfl
  | L :: M :: Ms, Llast, hall, h => by
    rw [List.getLast?_cons_cons] at h
    rw [joinLinesList_cons L (by simp),
      List.getLast?_append_of_ne_nil _ (by simp)]
    have hjoin_ne : joinLinesList (M :: Ms) ≠ [] :=
      joinLinesList_ne_nil (by simp) (fun L' hL' => hall L' (List.mem_cons_of_mem _ hL'))
    rw [show ('\n' :: joinLinesList (M :: Ms)) = ['\n'] ++ joinLinesList (M :: Ms) from rfl,
      List.getLast?_append_of_ne_nil _ hjoin_ne]
    exact joinLinesList_getLast?_eq
      (fun L' hL' => hall L' (List.mem_cons_of_mem _ hL')) h

/-! ## The serialized block of a good mapping -/

theorem entryLines_facts {kvs : List (String × Yaml)}
    (hgood : ∀ kv ∈ kvs, GoodKey kv.1 ∧ GoodVal kv.2) :
    ∀ L ∈ kvs.map entryLineChars,
      trimList L = L ∧ noTerm L ∧ L ≠ [] ∧ ':' ∈ L := by
  intro L hL
  rw [List.mem_map] at hL
  obtain ⟨kv, hkv, rfl⟩ := hL
  obtain ⟨hk, hv⟩ := hgood kv hkv
  exact entryLine_facts hk hv

theorem pyStrip_dump_map {kvs : List (String × Yaml)} (hne : kvs ≠ [])
    (hgood : ∀ kv ∈ kvs, GoodKey kv.1 ∧ GoodVal kv.2) :
    pyStrip (yaml_safe_dump (Yaml.map kvs))
      = ⟨joinLinesList (kvs.map entryLineChars)⟩ := by
  have hfacts := entryLines_facts hgood
  have hmapne : kvs.map entryLineChars ≠ [] := by simp [hne]
  have hallne : ∀ L ∈ kvs.map entryLineChars, L ≠ [] :=
    fun L hL => (hfacts L hL).2.2.1
  obtain ⟨Lfst, Lrest, hcons⟩ : ∃ Lfst Lrest, kvs.map entryLineChars = Lfst :: Lrest := by
    cases hm : kvs.map entryLineChars with
    | nil => exact absurd hm hmapne
    | cons a b => exact ⟨a, b, rfl⟩
  obtain ⟨Llast, hlast⟩ : ∃ Llast, (kvs.map entryLineChars).getLast? = some Llast := by
    cases hm : (kvs.map entryLineChars).getLast? with
    | none => exact absurd (List.getLast?_eq_none_iff.mp hm) hmapne
    | some a => exact ⟨a, rfl⟩
  have hdump : yaml_safe_dump (Yaml.map kvs)
      = ⟨joinLinesList (kvs.map entryLineChars) ++ ['\n']⟩ := by
    cases kvs with
    | nil => exact absurd rfl hne
    | cons kv rest => rfl
  rw [hdump]
  rw [show pyStrip ⟨joinLinesList (kvs.map entryLineChars) ++ ['\n']⟩
      = ⟨trimList (joinLinesList (kvs.map entryLineChars) ++ ['\n'])⟩ from rfl]
  rw [string_mk_inj]
  apply trimList_append_newline
  · intro c hc
    rw [hcons, joinLinesList_head?_eq (hallne Lfst (by rw [hcons]; simp))] at hc
    have htrim := (hfacts Lfst (by rw [hcons]; simp)).1
    have hh : (trimList Lfst).head? = some c := by rw [htrim]; exact hc
    exact trimList_head hh
  · intro c hc
    rw [joinLinesList_getLast?_eq hallne hlast] at hc
    have hmem := List.mem_of_getLast?_eq_some hlast
    have htrim := (hfacts Llast hmem).1
    have hh : (trimList Llast).getLast? = some c := by rw [htrim]; exact hc
    exact trimList_getLast hh

theorem pySplitlines_join_of_clean {Ls : List (List Char)} (hne : Ls ≠ [])
    (hnt : ∀ L ∈ Ls, noTerm L) (hallne : ∀ L ∈ Ls, L ≠ []) :
    pySplitlines ⟨joinLinesList Ls⟩ = Ls.map (fun L => (⟨L⟩ : String)) := by
  rw [pySplitlines]
  rw [show (⟨joinLinesList Ls⟩ : String).data = joinLinesList Ls from rfl]
  rw [splitLinesList_joinLinesList hnt hne]
  rw [if_neg]
  intro hcon
  exact hallne [] (List.mem_of_getLast?_eq_some hcon) rfl

theorem allItems_entry_cons (k : String) (v : Yaml) (rest : List LineItem) :
    allItems (LineItem.entry k v :: rest) = none := rfl

/-! ## The YAML roundtrip on good mappings -/

theorem load_strip_dump {kvs : List (String × Yaml)} (hne : kvs ≠ [])
    (hgood : ∀ kv ∈ kvs, GoodKey kv.1 ∧ GoodVal kv.2) :
    yaml_safe_load (pyStrip (yaml_safe_dump (Yaml.map kvs)))
      = Except.ok (Yaml.map kvs) := by
  have hfacts := entryLines_facts hgood
  rw [pyStrip_dump_map hne hgood]
  have hsplit : pySplitlines ⟨joinLinesList (kvs.map entryLineChars)⟩
      = (kvs.map entryLineChars).map (fun L => (⟨L⟩ : String)) :=
    pySplitlines_join_of_clean (by simp [hne]) (fun L hL => (hfacts L hL).2.1)
      (fun L hL => (hfacts L hL).2.2.1)
  have hfilter : ((kvs.map entryLineChars).map (fun L => (⟨L⟩ : String))).filter
        (fun l => decide (pyStrip l ≠ ""))
      = (kvs.map entryLineChars).map (fun L => (⟨L⟩ : String)) := by
    rw [List.filter_eq_self]
    intro a ha
    rw [List.mem_map] at ha
    obtain ⟨L, hL, rfl⟩ := ha
    have h1 := (hfacts L hL).1
    have h2 := (hfacts L hL).2.2.1
    rw [decide_eq_true_iff]
    show pyStrip ⟨L⟩ ≠ ""
    rw [show pyStrip ⟨L⟩ = ⟨trimList L⟩ from rfl, h1]
    intro hcon
    have hdat := congrArg String.data hcon
    exact h2 hdat
  have hclassify : ∀ a ∈ kvs, classifyLine ⟨entryLineChars a⟩ = LineItem.entry a.1 a.2 := by
    intro a ha
    rw [classifyLine, show (⟨entryLineChars a⟩ : String).data = entryLineChars a from rfl,
      (hfacts (entryLineChars a) (List.mem_map.mpr ⟨a, ha, rfl⟩)).1]
    exact classifyChars_entryLine (hgood a ha).1 (hgood a ha).2
  rw [yaml_safe_load]
  simp only [hsplit, hfilter]
  cases kvs with
  | nil => exact absurd rfl hne
  | cons kv rest =>
    cases rest with
    | nil =>
      simp only [List.map_cons, List.map_nil]
      rw [hclassify kv (by simp)]
    | cons kv2 rest2 =>
      have hmapclassify :
          ((((kv :: kv2 :: rest2).map entryLineChars).map
              (fun L => (⟨L⟩ : String))).map classifyLine)
            = (kv :: kv2 :: rest2).map (fun a => LineItem.entry a.1 a.2) := by
        rw [List.map_map, List.map_map]
        apply List.map_congr_left
        intro a ha
        exact hclassify a ha
      simp only [List.map_cons] at hmapclassify ⊢
      simp only [hmapclassify, allItems_entry_cons]
      have hae := allEntries_map_entry (kv :: kv2 :: rest2)
      simp only [List.map_cons] at hae
      simp only [hae]

theorem load_map_good {text : String} {kvs : List (String × Yaml)}
    (h : yaml_safe_load text = Except.ok (Yaml.map kvs)) :
    kvs ≠ [] ∧ ∀ kv ∈ kvs, GoodKey kv.1 ∧ GoodVal kv.2 := by
  have hnt : ∀ l ∈ (pySplitlines text).filter (fun l => decide (pyStrip l ≠ "")),
      noTerm l.data := by
    intro l hl
    exact noTerm_of_mem_pySplitlines (List.mem_filter.mp hl).1
  rw [yaml_safe_load] at h
  cases hls : (pySplitlines text).filter (fun l => decide (pyStrip l ≠ "")) with
  | nil => simp only [hls] at h; cases h
  | cons l1 rest =>
    cases rest with
    | nil =>
      simp only [hls] at h
      cases hcl : classifyLine l1 with
      | plain v =>
        simp only [hcl] at h
        injection h with h0
        subst h0
        have hshape : ∀ w, parseScalarChars w = Yaml.null ∨ ∃ s, parseScalarChars w = Yaml.scalar s := by
          intro w
          rw [parseScalarChars]
          by_cases hw : w = [] ∨ w = ['n', 'u', 'l', 'l'] ∨ w = ['~']
          · rw [if_pos hw]; exact Or.inl rfl
          · rw [if_neg hw]; exact Or.inr ⟨⟨w⟩, rfl⟩
        rw [classifyLine, classifyChars] at hcl
        by_cases h1 : trimList l1.data = ['-']
        · rw [if_pos h1] at hcl; cases hcl
        rw [if_neg h1] at hcl
        by_cases h2 : (trimList l1.data).take 2 = ['-', ' ']
        · rw [if_pos h2] at hcl; cases hcl
        rw [if_neg h2] at hcl
        cases hs : splitFirstColonSpace (trimList l1.data) with
        | some kv0 => obtain ⟨k', v'⟩ := kv0; simp only [hs] at hcl; cases hcl
        | none =>
          simp only [hs] at hcl
          by_cases h3 : (trimList l1.data).getLast? = some ':'
          · rw [if_pos h3] at hcl; cases hcl
          · rw [if_neg h3] at hcl
            injection hcl with h4
            rcases hshape (trimList (trimList l1.data)) with h5 | ⟨s, h5⟩
            · rw [h4] at h5; cases h5
            · rw [h4] at h5; cases h5
      | item v => simp only [hcl] at h; cases h
      | entry k v =>
        simp only [hcl] at h
        injection h with h0
        injection h0 with h0
        subst h0
        have hgood := classify_entry_good (hnt l1 (by rw [hls]; simp)) hcl
        refine ⟨by simp, ?_⟩
        intro kv hkv
        rw [List.mem_singleton] at hkv
        subst hkv
        exact hgood
    | cons l2 rest2 =>
      simp only [hls] at h
      cases hai : allItems ((l1 :: l2 :: rest2).map classifyLine) with
      | some xs => simp only [hai] at h; cases h
      | none =>
        simp only [hai] at h
        cases hae : allEntries ((l1 :: l2 :: rest2).map classifyLine) with
        | none => simp only [hae] at h; cases h
        | some kvs' =>
          simp only [hae] at h
          injection h with h0
          injection h0 with h0
          subst h0
          constructor
          · intro hnil
            subst hnil
            rw [List.map_cons] at hae
            cases hcl1 : classifyLine l1 with
            | item v => rw [hcl1] at hae; cases hae
            | plain v => rw [hcl1] at hae; cases hae
            | entry k v =>
              rw [hcl1, allEntries] at hae
              cases har : allEntries ((l2 :: rest2).map classifyLine) with
              | none => rw [har] at hae; cases hae
              | some kvr => rw [har] at hae; injection hae with h5; cases h5
          · intro kv hkv
            have hmem := allEntries_mem hae kv hkv
            rw [List.mem_map] at hmem
            obtain ⟨l, hl, hcl⟩ := hmem
            exact classify_entry_good (hnt l (by rw [hls]; exact hl)) hcl

/-! ## The success path of `extract_yaml_data` and `update_yaml_content` -/

theorem extract_ok {content : String} {d : Yaml} {s e : Nat}
    (h : extract_yaml_data content = Except.ok (d, s, e)) :
    find_yaml_block_indices content = (some s, some e) ∧
      yaml_safe_load
          (joinLines (((pySplitlines content).drop (s + 1)).take (e - (s + 1))))
        = Except.ok d := by
  rw [extract_yaml_data] at h
  cases hf : find_yaml_block_indices content with
  | mk os oe =>
    cases os with
    | none => simp only [hf] at h; cases oe <;> cases h
    | some s0 =>
      cases oe with
      | none => simp only [hf] at h; cases h
      | some e0 =>
        simp only [hf] at h
        cases hl : yaml_safe_load
            (joinLines (((pySplitlines content).drop (s0 + 1)).take (e0 - (s0 + 1)))) with
        | error msg => simp only [hl] at h; cases h
        | ok data =>
          simp only [hl] at h
          injection h with h0
          obtain ⟨hd, hs, he⟩ : data = d ∧ s0 = s ∧ e0 = e := by
            have h1 := congrArg Prod.fst h0
            have h2 := congrArg (fun x => x.2.1) h0
            have h3 := congrArg (fun x => x.2.2) h0
            exact ⟨h1, h2, h3⟩
          subst hd; subst hs; subst he
          exact ⟨rfl, hl⟩

theorem entryLine_not_delim {L : List Char}
    (h1 : trimList L = L) (h2 : ':' ∈ L) : pyStrip ⟨L⟩ ≠ "---" := by
  rw [show pyStrip ⟨L⟩ = ⟨trimList L⟩ from rfl, h1]
  intro hcon
  have hdat : L = "---".data := congrArg String.data hcon
  rw [hdat] at h2
  exact absurd h2 (by decide)

theorem map_mk_data (ls : List String) :
    (ls.map String.data).map (fun L => (⟨L⟩ : String)) = ls := by
  rw [List.map_map]
  exact (List.map_congr_left (fun a _ => rfl)).trans (List.map_id ls)

theorem map_data_mk (Ls : List (List Char)) :
    ((Ls.map (fun L => (⟨L⟩ : String))).map String.data) = Ls := by
  rw [List.map_map]
  exact (List.map_congr_left (fun a _ => rfl)).trans (List.map_id Ls)

theorem update_of_extract_error {content : String}
    (h : ∀ kvs s e, extract_yaml_data content ≠ Except.ok (Yaml.map kvs, s, e)) :
    update_yaml_content content = content := by
  rw [update_yaml_content]
  cases hx : extract_yaml_data content with
  | error err => rfl
  | ok dse =>
    obtain ⟨d, s, e⟩ := dse
    cases d with
    | null => rfl
    | scalar str => rfl
    | list xs => rfl
    | map kvs => exact absurd hx (h kvs s e)

theorem update_update_eq {content : String}
    (h : (pySplitlines content).getLast? ≠ some "") :
    update_yaml_content (update_yaml_content content) = update_yaml_content content := by
  cases hx : extract_yaml_data content with
  | error err =>
    have hupd : update_yaml_content content = content := by
      rw [update_yaml_content, hx]
    rw [hupd]
    exact hupd
  | ok dse =>
    obtain ⟨d, s, e⟩ := dse
    cases d with
    | null =>
      have hupd : update_yaml_content content = content := by
        rw [update_yaml_content, hx]
      rw [hupd]; exact hupd
    | scalar str =>
      have hupd : update_yaml_content content = content := by
        rw [update_yaml_content, hx]
      rw [hupd]; exact hupd
    | list xs =>
      have hupd : update_yaml_content content = content := by
        rw [update_yaml_content, hx]
      rw [hupd]; exact hupd
    | map kvs =>
      have hupdc : update_yaml_content content
          = build_updated_content content s e (pyStrip (yaml_safe_dump (Yaml.map kvs))) := by
        rw [update_yaml_content, hx]
        rfl
      obtain ⟨hfind, hload⟩ := extract_ok hx
      obtain ⟨A, d1, B0, d2, C, hlines, hlenA, he, hallA, hd1, hallB0, hd2⟩ :=
        find_eq_some_some hfind
      have hinner : ((pySplitlines content).drop (s + 1)).take (e - (s + 1)) = B0 := by
        rw [hlines,
          show A ++ d1 :: (B0 ++ d2 :: C) = (A ++ [d1]) ++ (B0 ++ d2 :: C) by simp,
          List.drop_left' (by simp [hlenA]),
          show e - (s + 1) = B0.length by omega,
          List.take_left]
      rw [hinner] at hload
      obtain ⟨hkne, hkgood⟩ := load_map_good hload
      have hfacts := entryLines_facts hkgood
      have hLsne : kvs.map entryLineChars ≠ [] := by simp [hkne]
      have hLsnt : ∀ L ∈ kvs.map entryLineChars, noTerm L := fun L hL => (hfacts L hL).2.1
      have hLsnonempty : ∀ L ∈ kvs.map entryLineChars, L ≠ [] :=
        fun L hL => (hfacts L hL).2.2.1
      have huLines : pySplitlines (pyStrip (yaml_safe_dump (Yaml.map kvs)))
          = (kvs.map entryLineChars).map (fun L => (⟨L⟩ : String)) := by
        rw [pyStrip_dump_map hkne hkgood]
        exact pySplitlines_join_of_clean hLsne hLsnt hLsnonempty
      have huLnodelim :
          ∀ l ∈ (kvs.map entryLineChars).map (fun L => (⟨L⟩ : String)),
            pyStrip l ≠ "---" := by
        intro l hl
        rw [List.mem_map] at hl
        obtain ⟨L, hL, rfl⟩ := hl
        exact entryLine_not_delim (hfacts L hL).1 (hfacts L hL).2.2.2
      have htake : (pySplitlines content).take s = A := by
        rw [hlines, List.take_left' hlenA]
      have hdropE : (pySplitlines content).drop (e + 1) = C := by
        rw [hlines,
          show A ++ d1 :: (B0 ++ d2 :: C) = (A ++ d1 :: B0 ++ [d2]) ++ C by simp,
          List.drop_left' (by simp [← hlenA]; omega)]
      have hbuild : update_yaml_content content
          = joinLines (A ++ "---" ::
              ((kvs.map entryLineChars).map (fun L => (⟨L⟩ : String)) ++ "---" :: C)) := by
        rw [hupdc, build_updated_content, htake, hdropE, huLines]
        have hlisteq : A ++ ["---"] ++
            (kvs.map entryLineChars).map (fun L => (⟨L⟩ : String)) ++ ["---"] ++ C
            = A ++ "---" ::
              ((kvs.map entryLineChars).map (fun L => (⟨L⟩ : String)) ++ "---" :: C) := by
          simp
        rw [hlisteq]
      -- the line list of the rebuilt content
      have hFLnt : ∀ l ∈ A ++ "---" ::
          ((kvs.map entryLineChars).map (fun L => (⟨L⟩ : String)) ++ "---" :: C),
          noTerm l.data := by
        intro l hl
        rcases List.mem_append.mp hl with h1 | h1
        · exact noTerm_of_mem_pySplitlines (by rw [hlines]; simp [h1])
        · rcases List.mem_cons.mp h1 with h1 | h1
          · subst h1; exact ⟨by decide, by decide⟩
          · rcases List.mem_append.mp h1 with h2 | h2
            · rw [List.mem_map] at h2
              obtain ⟨L, hL, rfl⟩ := h2
              exact hLsnt L hL
            · rcases List.mem_cons.mp h2 with h3 | h3
              · subst h3; exact ⟨by decide, by decide⟩
              · exact noTerm_of_mem_pySplitlines (by rw [hlines]; simp [h3])
      have hFLlast : (A ++ "---" ::
          ((kvs.map entryLineChars).map (fun L => (⟨L⟩ : String)) ++ "---" :: C)).getLast?
            ≠ some "" := by
        by_cases hCnil : C = []
        · subst hCnil
          rw [List.getLast?_append_of_ne_nil _ (by simp),
            show ("---" :: ((kvs.map entryLineChars).map (fun L => (⟨L⟩ : String)) ++ ["---"]))
              = ("---" :: (kvs.map entryLineChars).map (fun L => (⟨L⟩ : String))) ++ ["---"] by simp,
            List.getLast?_concat]
          intro hcon
          have hstr : ("---" : String) = "" := by injection hcon
          exact absurd (congrArg String.data hstr) (by decide)
        · rw [show A ++ "---" ::
              ((kvs.map entryLineChars).map (fun L => (⟨L⟩ : String)) ++ "---" :: C)
            = (A ++ "---" :: (kvs.map entryLineChars).map (fun L => (⟨L⟩ : String)) ++ ["---"]) ++ C by simp,
            List.getLast?_append_of_ne_nil _ hCnil]
          intro hcon
          apply h
          rw [hlines,
            show A ++ d1 :: (B0 ++ d2 :: C) = (A ++ d1 :: B0 ++ [d2]) ++ C by simp,
            List.getLast?_append_of_ne_nil _ hCnil]
          exact hcon
      have hsplito : pySplitlines (joinLines (A ++ "---" ::
          ((kvs.map entryLineChars).map (fun L => (⟨L⟩ : String)) ++ "---" :: C)))
          = A ++ "---" ::
              ((kvs.map entryLineChars).map (fun L => (⟨L⟩ : String)) ++ "---" :: C) := by
        rw [joinLines, pySplitlines,
          show (⟨joinLinesList ((A ++ "---" ::
            ((kvs.map entryLineChars).map (fun L => (⟨L⟩ : String)) ++ "---" :: C)).map String.data)⟩ : String).data
            = joinLinesList ((A ++ "---" ::
              ((kvs.map entryLineChars).map (fun L => (⟨L⟩ : String)) ++ "---" :: C)).map String.data) from rfl,
          splitLinesList_joinLinesList
            (by
              intro L hL
              rw [List.mem_map] at hL
              obtain ⟨l, hl, rfl⟩ := hL
              exact hFLnt l hl)
            (by simp),
          if_neg (by
            rw [List.getLast?_map]
            intro hcon
            cases hgl : (A ++ "---" ::
                ((kvs.map entryLineChars).map (fun L => (⟨L⟩ : String)) ++ "---" :: C)).getLast? with
            | none => rw [hgl] at hcon; cases hcon
            | some lst =>
              rw [hgl] at hcon
              simp only [Option.map_some', Option.some_inj] at hcon
              apply hFLlast
              rw [hgl]
              have hlst : lst = "" := by
                have h5 : lst.data = ("" : String).data := hcon
                exact congrArg (fun L => (⟨L⟩ : String)) h5
              rw [hlst])]
        exact map_mk_data _
      have hfind2 : find_yaml_block_indices (joinLines (A ++ "---" ::
          ((kvs.map entryLineChars).map (fun L => (⟨L⟩ : String)) ++ "---" :: C)))
          = (some s, some (s + 1 + ((kvs.map entryLineChars).map (fun L => (⟨L⟩ : String))).length)) := by
        have hfs := find_of_shape hsplito hallA (by decide) huLnodelim (by decide)
        rw [hlenA] at hfs
        exact hfs
      have hinner2 : ((pySplitlines (joinLines (A ++ "---" ::
            ((kvs.map entryLineChars).map (fun L => (⟨L⟩ : String)) ++ "---" :: C)))).drop (s + 1)).take
            ((s + 1 + ((kvs.map entryLineChars).map (fun L => (⟨L⟩ : String))).length) - (s + 1))
          = (kvs.map entryLineChars).map (fun L => (⟨L⟩ : String)) := by
        rw [hsplito,
          show A ++ "---" ::
              ((kvs.map entryLineChars).map (fun L => (⟨L⟩ : String)) ++ "---" :: C)
            = (A ++ ["---"]) ++
              ((kvs.map entryLineChars).map (fun L => (⟨L⟩ : String)) ++ "---" :: C) by simp,
          List.drop_left' (by simp [hlenA]),
          show (s + 1 + ((kvs.map entryLineChars).map (fun L => (⟨L⟩ : String))).length) - (s + 1)
            = ((kvs.map entryLineChars).map (fun L => (⟨L⟩ : String))).length by omega,
          List.take_left]
      have hjoinuL : joinLines ((kvs.map entryLineChars).map (fun L => (⟨L⟩ : String)))
          = pyStrip (yaml_safe_dump (Yaml.map kvs)) := by
        rw [joinLines, map_data_mk, pyStrip_dump_map hkne hkgood]
      have hx2 : extract_yaml_data (joinLines (A ++ "---" ::
            ((kvs.map entryLineChars).map (fun L => (⟨L⟩ : String)) ++ "---" :: C)))
          = Except.ok (Yaml.map kvs, s,
              s + 1 + ((kvs.map entryLineChars).map (fun L => (⟨L⟩ : String))).length) := by
        rw [extract_yaml_data]
        simp only [hfind2, hinner2, hjoinuL, load_strip_dump hkne hkgood]
      have hupd2 : update_yaml_content (joinLines (A ++ "---" ::
            ((kvs.map entryLineChars).map (fun L => (⟨L⟩ : String)) ++ "---" :: C)))
          = build_updated_content (joinLines (A ++ "---" ::
              ((kvs.map entryLineChars).map (fun L => (⟨L⟩ : String)) ++ "---" :: C)))
              s (s + 1 + ((kvs.map entryLineChars).map (fun L => (⟨L⟩ : String))).length)
              (pyStrip (yaml_safe_dump (Yaml.map kvs))) := by
        rw [update_yaml_content, hx2]
        rfl
      have hbuild2 : build_updated_content (joinLines (A ++ "---" ::
            ((kvs.map entryLineChars).map (fun L => (⟨L⟩ : String)) ++ "---" :: C)))
            s (s + 1 + ((kvs.map entryLineChars).map (fun L => (⟨L⟩ : String))).length)
            (pyStrip (yaml_safe_dump (Yaml.map kvs)))
          = joinLines (A ++ "---" ::
              ((kvs.map entryLineChars).map (fun L => (⟨L⟩ : String)) ++ "---" :: C)) := by
        rw [build_updated_content, hsplito, List.take_left' hlenA, huLines,
          show A ++ "---" ::
              ((kvs.map entryLineChars).map (fun L => (⟨L⟩ : String)) ++ "---" :: C)
            = (A ++ "---" :: (kvs.map entryLineChars).map (fun L => (⟨L⟩ : String)) ++ ["---"]) ++ C by simp,
          List.drop_left' (by simp [hlenA]; omega)]
        congr 1
        simp
      rw [hbuild, hupd2, hbuild2]

theorem find_getD_facts {content : String} {s e : Nat}
    (h : find_yaml_block_indices content = (some s, some e)) :
    s < e ∧ e < (pySplitlines content).length ∧
      pyStrip ((pySplitlines content).getD s "") = "---" ∧
      pyStrip ((pySplitlines content).getD e "") = "---" ∧
      (∀ i, i < s → pyStrip ((pySplitlines content).getD i "") ≠ "---") ∧
      (∀ i, i < e - (s + 1) →
        pyStrip (((pySplitlines content).drop (s + 1)).getD i "") ≠ "---") := by
  obtain ⟨A, d1, B2, d2, C2, hlines, hlenA, he, hallA, hd1, hallB2, hd2⟩ :=
    find_eq_some_some h
  subst he
  subst hlenA
  have hdrop : (pySplitlines content).drop (A.length + 1) = B2 ++ d2 :: C2 := by
    rw [hlines,
      show A ++ d1 :: (B2 ++ d2 :: C2) = (A ++ [d1]) ++ (B2 ++ d2 :: C2) by simp,
      List.drop_left' (by simp)]
  refine ⟨by omega, ?_, ?_, ?_, ?_, ?_⟩
  · rw [hlines]
    simp only [List.length_append, List.length_cons]
    omega
  · rw [hlines, List.getD_append_right _ _ _ _ (Nat.le_refl _), Nat.sub_self,
      List.getD_cons_zero]
    exact hd1
  · rw [hlines, List.getD_append_right _ _ _ _ (by omega),
      show A.length + 1 + B2.length - A.length = B2.length + 1 by omega,
      List.getD_cons_succ,
      List.getD_append_right _ _ _ _ (Nat.le_refl _), Nat.sub_self,
      List.getD_cons_zero]
    exact hd2
  · intro i hi
    rw [hlines, List.getD_append _ _ _ _ hi, List.getD_eq_getElem _ _ hi]
    exact hallA _ (List.getElem_mem hi)
  · intro i hi
    rw [show A.length + 1 + B2.length - (A.length + 1) = B2.length by omega] at hi
    rw [hdrop, List.getD_append _ _ _ _ hi, List.getD_eq_getElem _ _ hi]
    exact hallB2 _ (List.getElem_mem hi)

/-! ## The claims -/

/-- C1 counterexample: `update_yaml_content` is not idempotent as claimed.  On
`"---\na: 1\n---\nB\n\n"` the first run yields `"---\na: 1\n---\nB\n"` and the
second run yields `"---\na: 1\n---\nB"`: each pass drops one trailing line
terminator, because Python `splitlines` swallows the final terminator and the
rebuild joins with bare `\n`. -/
theorem update_yaml_content_not_idempotent :
    update_yaml_content (update_yaml_content "---\na: 1\n---\nB\n\n")
      ≠ update_yaml_content "---\na: 1\n---\nB\n\n" := by decide

/-- C1 (amended): for every text whose final line is non-empty (the text does
not end in two consecutive line terminators), applying `update_yaml_content`
twice yields the same result as applying it once — the field updater being the
identity. -/
theorem update_yaml_content_idempotent_of_last_line_nonempty (content : String)
    (h : (pySplitlines content).getLast? ≠ some "") :
    update_yaml_content (update_yaml_content content) = update_yaml_content content :=
  update_update_eq h

/-- C1 witness: the amended idempotence at a concrete input. -/
theorem update_yaml_content_idempotent_witness :
    (pySplitlines "A\n---\nk: 1\n---\nB\n").getLast? ≠ some "" ∧
      update_yaml_content (update_yaml_content "A\n---\nk: 1\n---\nB\n")
        = update_yaml_content "A\n---\nk: 1\n---\nB\n" :=
  ⟨by decide, update_yaml_content_idempotent_of_last_line_nonempty _ (by decide)⟩

/-- C2: on every text with exactly one line stripping to `---` (and hence no
later one), `extract_yaml_data` raises the dedicated `YamlBlockNotFound`
error — with its fixed message — and not a generic parse error. -/
theorem extract_single_delim_block_not_found (content : String)
    (h : (pySplitlines content).countP delimP = 1) :
    extract_yaml_data content
      = Except.error (ExtractError.yamlBlockNotFound yamlBlockNotFoundMessage) := by
  apply extract_of_find_not_both
  intro s e hfind
  obtain ⟨A, d1, B2, d2, C2, hlines, _, _, _, hd1, _, hd2⟩ := find_eq_some_some hfind
  have hp1 : delimP d1 = true := by simp [delimP, hd1]
  have hp2 : delimP d2 = true := by simp [delimP, hd2]
  rw [hlines, List.countP_append, List.countP_cons_of_pos _ _ hp1,
    List.countP_append, List.countP_cons_of_pos _ _ hp2] at h
  omega

/-- C2 witness. -/
theorem extract_single_delim_witness :
    (pySplitlines "a\n---\nb").countP delimP = 1 ∧
      extract_yaml_data "a\n---\nb"
        = Except.error (ExtractError.yamlBlockNotFound yamlBlockNotFoundMessage) :=
  ⟨by decide, extract_single_delim_block_not_found _ (by decide)⟩

/-- C3: on every text with no line stripping to `---`, the locator returns
`(none, none)`, `update_yaml_content` returns the text unchanged, and
`process_file` does not write. -/
theorem no_delim_unchanged (content : String)
    (h : ∀ l ∈ pySplitlines content, pyStrip l ≠ "---") :
    find_yaml_block_indices content = (none, none) ∧
      update_yaml_content content = content ∧
      process_file_writes content = false := by
  have hn : findDelimIdx (pySplitlines content) = none := findDelimIdx_eq_none_iff.mpr h
  have hfind : find_yaml_block_indices content = (none, none) := by
    rw [find_yaml_block_indices]
    simp only [hn]
  have hx : extract_yaml_data content
      = Except.error (ExtractError.yamlBlockNotFound yamlBlockNotFoundMessage) :=
    extract_of_find_not_both (fun s e hc => by rw [hfind] at hc; cases hc)
  have hupd : update_yaml_content content = content := by
    rw [update_yaml_content, hx]
  exact ⟨hfind, hupd, by simp [process_file_writes, hupd]⟩

/-- C3 witness. -/
theorem no_delim_unchanged_witness :
    (∀ l ∈ pySplitlines "hello\nworld", pyStrip l ≠ "---") ∧
      (find_yaml_block_indices "hello\nworld" = (none, none) ∧
        update_yaml_content "hello\nworld" = "hello\nworld" ∧
        process_file_writes "hello\nworld" = false) :=
  ⟨by decide, no_delim_unchanged _ (by decide)⟩

/-- C4: on every text with at least two lines stripping to `---`, the locator
returns the first such line and the next one after it (the first matching
pair: every earlier index fails the test), and the rebuilder appends all lines
after the end index — including any later `---` lines — unchanged after the
closing delimiter. -/
theorem find_first_pair_and_suffix_passthrough (content : String)
    (h : 2 ≤ (pySplitlines content).countP delimP) :
    ∃ s j, find_yaml_block_indices content = (some s, some (s + 1 + j)) ∧
      (∀ i, i < s → pyStrip ((pySplitlines content).getD i "") ≠ "---") ∧
      pyStrip ((pySplitlines content).getD s "") = "---" ∧
      (∀ i, i < j →
        pyStrip (((pySplitlines content).drop (s + 1)).getD i "") ≠ "---") ∧
      pyStrip ((pySplitlines content).getD (s + 1 + j) "") = "---" ∧
      (∀ u, build_updated_content content s (s + 1 + j) u
        = joinLines ((pySplitlines content).take s ++ ["---"] ++ pySplitlines u
            ++ ["---"] ++ (pySplitlines content).drop (s + 1 + j + 1))) := by
  cases hf1 : findDelimIdx (pySplitlines content) with
  | none =>
    obtain ⟨l0, hl0, hp0⟩ := List.countP_pos_iff.mp
      (show 0 < (pySplitlines content).countP delimP by omega)
    exact absurd (of_decide_eq_true hp0) (findDelimIdx_eq_none_iff.mp hf1 l0 hl0)
  | some s0 =>
    cases hf2 : findDelimIdx ((pySplitlines content).drop (s0 + 1)) with
    | none =>
      obtain ⟨a, d, b, hsplit, hlen, hall, hd⟩ := findDelimIdx_eq_some hf1
      have hdrop : (pySplitlines content).drop (s0 + 1) = b := by
        rw [hsplit, show a ++ d :: b = (a ++ [d]) ++ b by simp,
          List.drop_left' (by simp [hlen])]
      rw [hdrop] at hf2
      have hb : (b : List String).countP delimP = 0 := by
        rw [List.countP_eq_zero]
        intro l hl
        simp only [delimP, decide_eq_true_eq]
        exact findDelimIdx_eq_none_iff.mp hf2 l hl
      have ha : (a : List String).countP delimP = 0 := by
        rw [List.countP_eq_zero]
        intro l hl
        simp only [delimP, decide_eq_true_eq]
        exact hall l hl
      have hdp : delimP d = true := by simp [delimP, hd]
      rw [hsplit, List.countP_append, ha, List.countP_cons_of_pos _ _ hdp, hb] at h
      omega
    | some j =>
      have hfind : find_yaml_block_indices content = (some s0, some (s0 + 1 + j)) := by
        rw [find_yaml_block_indices]
        simp only [hf1, hf2]
      obtain ⟨_, _, hs, hee, hbefore, hinside⟩ := find_getD_facts hfind
      refine ⟨s0, j, hfind, hbefore, hs, ?_, hee, fun u => rfl⟩
      intro i hi
      exact hinside i (by omega)

/-- C4 witness. -/
theorem find_first_pair_witness :
    2 ≤ (pySplitlines "x\n---\nk: 1\n---\ny\n---\nz").countP delimP ∧
      (∃ s j, find_yaml_block_indices "x\n---\nk: 1\n---\ny\n---\nz"
          = (some s, some (s + 1 + j)) ∧
        (∀ i, i < s →
          pyStrip ((pySplitlines "x\n---\nk: 1\n---\ny\n---\nz").getD i "") ≠ "---") ∧
        pyStrip ((pySplitlines "x\n---\nk: 1\n---\ny\n---\nz").getD s "") = "---" ∧
        (∀ i, i < j →
          pyStrip (((pySplitlines "x\n---\nk: 1\n---\ny\n---\nz").drop (s + 1)).getD i "")
            ≠ "---") ∧
        pyStrip ((pySplitlines "x\n---\nk: 1\n---\ny\n---\nz").getD (s + 1 + j) "")
          = "---" ∧
        (∀ u, build_updated_content "x\n---\nk: 1\n---\ny\n---\nz" s (s + 1 + j) u
          = joinLines ((pySplitlines "x\n---\nk: 1\n---\ny\n---\nz").take s
              ++ ["---"] ++ pySplitlines u ++ ["---"]
              ++ (pySplitlines "x\n---\nk: 1\n---\ny\n---\nz").drop (s + 1 + j + 1)))) :=
  ⟨by decide, find_first_pair_and_suffix_passthrough _ (by decide)⟩

/-- C5: `build_updated_content` copies the lines strictly before the start
index and strictly after the end index verbatim around the rebuilt block —
this is exactly its defining equation — and on the spec example
`"A\n---\nk: 1\n---\nB\n"` the identity update yields
`"A\n---\nk: 1\n---\nB"` with no spurious trailing newline. -/
theorem build_preserves_outside_lines :
    (∀ content s e u, build_updated_content content s e u
      = joinLines ((pySplitlines content).take s ++ ["---"] ++ pySplitlines u
          ++ ["---"] ++ (pySplitlines content).drop (e + 1))) ∧
      update_yaml_content "A\n---\nk: 1\n---\nB\n" = "A\n---\nk: 1\n---\nB" :=
  ⟨fun _ _ _ _ => rfl, by decide⟩

/-- C6: whenever the extracted block parses to a non-mapping value,
`update_yaml_content` returns the text unchanged and no write occurs. -/
theorem update_unchanged_on_non_mapping (content : String) (d : Yaml) (s e : Nat)
    (hx : extract_yaml_data content = Except.ok (d, s, e))
    (hnm : ∀ kvs, d ≠ Yaml.map kvs) :
    update_yaml_content content = content ∧ process_file_writes content = false := by
  have hupd : update_yaml_content content = content := by
    rw [update_yaml_content, hx]
    cases d with
    | null => rfl
    | scalar str => rfl
    | list xs => rfl
    | map kvs => exact absurd rfl (hnm kvs)
  exact ⟨hupd, by simp [process_file_writes, hupd]⟩

/-- C6 witness: a block parsing to a YAML list (`- 1` / `- 2`). -/
theorem update_unchanged_on_list_witness :
    extract_yaml_data "---\n- 1\n- 2\n---\nx"
        = Except.ok (Yaml.list [Yaml.scalar "1", Yaml.scalar "2"], 0, 3) ∧
      (update_yaml_content "---\n- 1\n- 2\n---\nx" = "---\n- 1\n- 2\n---\nx" ∧
        process_file_writes "---\n- 1\n- 2\n---\nx" = false) :=
  ⟨rfl, update_unchanged_on_non_mapping _ _ 0 3 rfl (fun _ h => Yaml.noConfusion h)⟩

/-- C7 counterexample: the claim that an unterminated block yields the same
locator return value as an absent block is false: `"---"` yields
`(some 0, none)` while a text with no delimiter yields `(none, none)`. -/
theorem find_unterminated_differs_from_absent :
    find_yaml_block_indices "---" = (some 0, none) ∧
      find_yaml_block_indices "x" = (none, none) ∧
      ((some 0, none) : Option Nat × Option Nat) ≠ (none, none) :=
  ⟨by decide, by decide, by decide⟩

/-- C7 (amended): an unterminated block is indistinguishable from an absent
block at the caller `extract_yaml_data`: both produce the very same
`YamlBlockNotFound` error — even though `find_yaml_block_indices` itself
returns `(some start, none)` rather than `(none, none)`. -/
theorem unterminated_same_error_as_absent (c1 c2 : String) (s : Nat)
    (h1 : find_yaml_block_indices c1 = (some s, none))
    (h2 : find_yaml_block_indices c2 = (none, none)) :
    extract_yaml_data c1
        = Except.error (ExtractError.yamlBlockNotFound yamlBlockNotFoundMessage) ∧
      extract_yaml_data c1 = extract_yaml_data c2 := by
  have e1 : extract_yaml_data c1
      = Except.error (ExtractError.yamlBlockNotFound yamlBlockNotFoundMessage) :=
    extract_of_find_not_both (fun s' e' hc => by rw [h1] at hc; simp at hc)
  have e2 : extract_yaml_data c2
      = Except.error (ExtractError.yamlBlockNotFound yamlBlockNotFoundMessage) :=
    extract_of_find_not_both (fun s' e' hc => by rw [h2] at hc; simp at hc)
  exact ⟨e1, e1.trans e2.symm⟩

/-- C7 witness. -/
theorem unterminated_same_error_witness :
    extract_yaml_data "---"
        = Except.error (ExtractError.yamlBlockNotFound yamlBlockNotFoundMessage) ∧
      extract_yaml_data "---" = extract_yaml_data "x" :=
  unterminated_same_error_as_absent "---" "x" 0 (by decide) (by decide)

/-- C8: the field updater is the identity on the mapping: `dict(data)` is a
shallow copy equal to its input, the transformation logic being commented
out.  In this pure embedding non-mutation of the input is automatic, and the
returned mapping equals the input. -/
theorem update_yaml_field_identity (data : List (String × Yaml)) :
    update_yaml_field data = data := rfl

/-- C9: whenever the locator returns two indices, the start strictly precedes
the end, both index into the line list, and both indexed lines strip to
`---`. -/
theorem find_indices_invariant (content : String) (s e : Nat)
    (h : find_yaml_block_indices content = (some s, some e)) :
    s < e ∧ e < (pySplitlines content).length ∧
      pyStrip ((pySplitlines content).getD s "") = "---" ∧
      pyStrip ((pySplitlines content).getD e "") = "---" := by
  obtain ⟨h1, h2, h3, h4, _, _⟩ := find_getD_facts h
  exact ⟨h1, h2, h3, h4⟩

/-- C9 witness. -/
theorem find_indices_invariant_witness :
    find_yaml_block_indices "---\na: 1\n---" = (some 0, some 2) ∧
      (0 < 2 ∧ 2 < (pySplitlines "---\na: 1\n---").length ∧
        pyStrip ((pySplitlines "---\na: 1\n---").getD 0 "") = "---" ∧
        pyStrip ((pySplitlines "---\na: 1\n---").getD 2 "") = "---") :=
  ⟨by decide, find_indices_invariant _ 0 2 (by decide)⟩

/-- C10: `update_yaml_content` is a total function (it is a Lean `def`, so it
returns a string on every input), and on every input on which
`extract_yaml_data` does not succeed with a mapping — block not found, parse
failure, or a non-mapping shape — it returns the original text. -/
theorem update_yaml_content_total_error_paths (content : String)
    (h : ∀ kvs s e, extract_yaml_data content ≠ Except.ok (Yaml.map kvs, s, e)) :
    update_yaml_content content = content :=
  update_of_extract_error h

/-- C10 witness. -/
theorem update_yaml_content_total_witness :
    update_yaml_content "no yaml here" = "no yaml here" :=
  update_yaml_content_total_error_paths _ (by
    intro kvs s e hc
    rw [show extract_yaml_data "no yaml here"
        = Except.error (ExtractError.yamlBlockNotFound yamlBlockNotFoundMessage)
      from rfl] at hc
    cases hc)

end ObsidianYamlEditor
